import Mathlib

set_option maxRecDepth 8000

/-!
Verification development for the climb-stats comment-parsing and
entry-disambiguation engine.

Shallow embedding of the data model (`src/core.py`) and of the tokenizer and
fuzzy-match resolver (`src/enter_climbs.py`).  Python strings are modelled as
`List Char` (a Python `str` is a sequence of characters); the external
similarity function `fuzz.partial_token_sort_ratio` from the third-party
`thefuzz` library is a parameter of the resolver, constrained only where a
claim needs its documented 0-100 scale.
-/

/-- Python strings are character sequences. -/
abbrev Str := List Char

/-- Python `needle.isPrefix-like` test used to implement `needle in hay`:
`isPrefixB n h` is true when `n` is an initial segment of `h`. -/
def isPrefixB : Str → Str → Bool
  | [], _ => true
  | _ :: _, [] => false
  | a :: xs, b :: ys => decide (a = b) && isPrefixB xs ys

/-- Python substring containment `needle in hay` (`str.__contains__`). -/
def containsSub : Str → Str → Bool
  | [], needle => needle.isEmpty
  | c :: t, needle => isPrefixB needle (c :: t) || containsSub t needle

/-- Python `str.strip()`: drop leading and trailing whitespace. -/
def strip (l : Str) : Str :=
  ((l.dropWhile Char.isWhitespace).reverse.dropWhile Char.isWhitespace).reverse

/-- `core.ClimbEvent`: one person getting on a climb once. -/
structure ClimbEvent where
  climber : Str
  hang : Bool
deriving DecidableEq

/-- `core.ClimbInfo`: guidebook information about a climb. -/
structure ClimbInfo where
  name : Str
  grade : Str
  aliases : List Str
deriving DecidableEq

/-- `core.ClimbEntry`: one climb on a date, with parsed approximate name,
parenthetical comment, and derived climb events. -/
structure ClimbEntry where
  name_approx : Str
  comment : Str
  climbers : List Str
  climb_info : Option ClimbInfo
  climb_events : List ClimbEvent
  idx_entry_start : Nat
deriving DecidableEq

/-- The fixed two-member climber vocabulary `["TA", "AS"]` scanned for in
comments (`core.py` line 99 and `enter_climbs.py` line 140). -/
def climberVocab : List Str := ["TA".data, "AS".data]

/-- The `ClimbEntry` dataclass constructor together with `__post_init__`
(`core.py` lines 98-103): scan the comment for each vocabulary climber; the
found subset (or, if empty, the supplied `climbers` list) each contributes one
event with `hang = false`, appended to the supplied event list. -/
def ClimbEntry.make (name_approx comment : Str) (climbers : List Str)
    (climb_info : Option ClimbInfo) (climb_events : List ClimbEvent)
    (idx_entry_start : Nat) : ClimbEntry :=
  let found := climberVocab.filter (fun c => containsSub comment c)
  let cs := if found = [] then climbers else found
  { name_approx := name_approx, comment := comment, climbers := climbers,
    climb_info := climb_info,
    climb_events := climb_events ++ cs.map (fun c => { climber := c, hang := false }),
    idx_entry_start := idx_entry_start }

/-- `ClimbEntry.replace_climb_events` (`core.py` lines 117-125): remove all
climb events for `climber` and append the new ones. -/
def ClimbEntry.replace_climb_events (entry : ClimbEntry) (climber : Str)
    (climb_events : List ClimbEvent) : ClimbEntry :=
  { entry with climb_events :=
      entry.climb_events.filter (fun e => decide (e.climber ≠ climber))
        ++ climb_events }

/-- The tokenizer's state variable `state` (`"name"` / `"comment"`). -/
inductive Mode where
  | name : Mode
  | comment : Mode
deriving DecidableEq

/-- The mutable loop state of `get_climb_entries_from_climbing_day`. -/
structure TokState where
  mode : Mode
  entries : List ClimbEntry
  name_approx : Str
  climb_comment : Str
  climbers : List Str
  idx_entry_start : Nat
deriving DecidableEq

/-- The separator characters recognised in `NAME` mode
(`enter_climbs.py` line 153). -/
def seps : List Char := [',', '.', ';', '!', ':', '-']

/-- Python truthiness test `name_approx and name_approx[-1] == "5"`
(`enter_climbs.py` line 154). -/
def endsIn5 (l : Str) : Bool :=
  match l.getLast? with
  | some c => decide (c = '5')
  | none => false

/-- One iteration of the character loop of
`get_climb_entries_from_climbing_day` (`enter_climbs.py` lines 143-171). -/
def tokStep (commentLen : Nat) (s : TokState) (idx : Nat) (char : Char) :
    TokState :=
  if char = '(' then
    { s with mode := Mode.comment }
  else if char = ')' ∧ idx ≠ commentLen - 1 then
    { s with mode := Mode.name }
  else
    let s1 := if char = ')' then { s with mode := Mode.name } else s
    if s1.mode = Mode.name ∧ (char ∈ seps ∨ idx = commentLen - 1)
        ∧ endsIn5 s1.name_approx = false then
      { s1 with
        entries := s1.entries
          ++ [ClimbEntry.make (strip s1.name_approx) (strip s1.climb_comment)
                s1.climbers none [] s1.idx_entry_start],
        name_approx := [], climb_comment := [], idx_entry_start := idx + 1 }
    else
      let s2 := if s1.mode = Mode.name then
        { s1 with name_approx := s1.name_approx ++ [char] } else s1
      if s2.mode = Mode.comment then
        { s2 with climb_comment := s2.climb_comment ++ [char] } else s2

/-- The `for idx, char in enumerate(comment)` loop. -/
def tokRun (commentLen : Nat) : TokState → Nat → List Char → TokState
  | s, _, [] => s
  | s, idx, c :: cs => tokRun commentLen (tokStep commentLen s idx c) (idx + 1) cs

/-- `get_climb_entries_from_climbing_day` (`enter_climbs.py` lines 117-173):
the state-machine tokenizer turning one log text into climb entries.  The
`date` argument is accepted and unused, as in the source. -/
def get_climb_entries_from_climbing_day (comment date place_and_climbers : Str) :
    List ClimbEntry :=
  (tokRun comment.length
    { mode := Mode.name, entries := [], name_approx := [], climb_comment := [],
      climbers := climberVocab.filter (fun c => containsSub place_and_climbers c),
      idx_entry_start := 0 } 0 comment).entries

/-- One row of the match table built by `get_matches`
(`enter_climbs.py` line 271); column names `match, name, alias, alias_len`
(`match` and `alias` are reserved words in Lean, so the first is `score` and
the third `aliasStr`). -/
structure MatchRow where
  score : Nat
  name : Str
  aliasStr : Str
  alias_len : Nat
deriving DecidableEq

/-- Descending lexicographic order on the sort key `("match", "alias_len")`
used by `matches.sort(("match", "alias_len"), reverse=True)`
(`enter_climbs.py` line 274): `KeyGE a b` holds when row `a` may come before
row `b`. -/
def KeyGE (a b : MatchRow) : Prop :=
  b.score < a.score ∨ (b.score = a.score ∧ b.alias_len ≤ a.alias_len)

instance : DecidableRel KeyGE := fun a b =>
  decidable_of_iff
    (b.score < a.score ∨ (b.score = a.score ∧ b.alias_len ≤ a.alias_len)) Iff.rfl

instance : IsTotal MatchRow KeyGE :=
  ⟨by intro a b; unfold KeyGE; omega⟩

instance : IsTrans MatchRow KeyGE :=
  ⟨by intro a b c; unfold KeyGE; omega⟩

/-- The row list built by the double loop of `get_matches`
(`enter_climbs.py` lines 264-272): one row per `(canonical_name, alias)` pair,
scored 1000 on exact equality with `name_approx` and by the external fuzzy
similarity function `fuzz` otherwise. -/
def candidateRows (fuzz : Str → Str → Nat) (name_approx : Str)
    (climbs_info : List (Str × ClimbInfo)) : List MatchRow :=
  (climbs_info.map (fun p =>
    p.2.aliases.map (fun a =>
      { score := if name_approx = a then 1000 else fuzz name_approx a,
        name := p.1, aliasStr := a, alias_len := a.length }))).flatten

/-- `get_matches` (`enter_climbs.py` lines 259-280): sort the candidate rows
descending by `("match", "alias_len")`, then threshold on the top score.
When there are no rows at all, the source raises (`matches["match"][0]` is an
out-of-bounds index on the empty table), modelled as `none`. -/
def get_matches (fuzz : Str → Str → Nat) (name_approx : Str)
    (climbs_info : List (Str × ClimbInfo)) : Option (List MatchRow) :=
  match List.insertionSort KeyGE (candidateRows fuzz name_approx climbs_info) with
  | [] => none
  | top :: rest =>
    some (if top.score ≤ 60 then (top :: rest).take 4
          else (top :: rest).filter (fun r => decide (60 ≤ r.score)))

/-- A character that is neither a separator nor a parenthesis: in `NAME` mode
the scan simply accumulates it. -/
def plainChar (c : Char) : Prop := c ∉ seps ∧ c ≠ '(' ∧ c ≠ ')'

instance (c : Char) : Decidable (plainChar c) :=
  decidable_of_iff (c ∉ seps ∧ c ≠ '(' ∧ c ≠ ')') Iff.rfl

/-! ### Tokenizer lemmas -/

theorem tokRun_append (cl : Nat) (xs : List Char) :
    ∀ (ys : List Char) (s : TokState) (idx : Nat),
      tokRun cl s idx (xs ++ ys) = tokRun cl (tokRun cl s idx xs) (idx + xs.length) ys := by
  induction xs with
  | nil => intro ys s idx; simp [tokRun]
  | cons x xs ih =>
      intro ys s idx
      have harith : idx + (xs.length + 1) = (idx + 1) + xs.length := by omega
      simp only [List.cons_append, tokRun, List.length_cons, harith]
      exact ih ys (tokStep cl s idx x) (idx + 1)

theorem tokStep_plain (cl : Nat) (s : TokState) (idx : Nat) (c : Char)
    (hc : plainChar c) (hmode : s.mode = Mode.name) (hidx : idx ≠ cl - 1) :
    tokStep cl s idx c = { s with name_approx := s.name_approx ++ [c] } := by
  obtain ⟨hc0, hc1, hc2⟩ := hc
  simp [tokStep, hc0, hc1, hc2, hmode, hidx]

theorem tokRun_plain (cl : Nat) (cs : List Char) :
    ∀ (s : TokState) (idx : Nat), (∀ c ∈ cs, plainChar c) → s.mode = Mode.name →
      idx + cs.length < cl →
      tokRun cl s idx cs = { s with name_approx := s.name_approx ++ cs } := by
  induction cs with
  | nil => intro s idx _ _ _; simp [tokRun]
  | cons c cs ih =>
      intro s idx hplain hmode hlen
      have hidx : idx ≠ cl - 1 := by
        simp only [List.length_cons] at hlen; omega
      have hstep := tokStep_plain cl s idx c (hplain c (by simp)) hmode hidx
      simp only [tokRun, hstep]
      have := ih { s with name_approx := s.name_approx ++ [c] } (idx + 1)
        (fun x hx => hplain x (by simp [hx])) hmode
        (by simp only [List.length_cons] at hlen; omega)
      rw [this]
      simp

/-- Claim C2 counterexample: the input "Armed" is a single separator-free run,
yet the tokenizer returns one entry named "Arme" — the final input character
is dropped when end-of-string terminates the entry — so the entry's name is
not the trimmed input. -/
theorem tokenize_single_run_counterexample :
    (∀ x ∈ "Armed".data, x ∉ seps) ∧
    ¬ ((get_climb_entries_from_climbing_day "Armed".data [] []).map
        (fun e => (e.name_approx, e.comment)) = [("Armed".data, [])]) := by
  constructor
  · decide
  · intro h
    have hval : (get_climb_entries_from_climbing_day "Armed".data [] []).map
        (fun e => (e.name_approx, e.comment)) = [("Arme".data, [])] := by decide
    rw [hval] at h
    exact absurd h (by decide)

/-- Claim C2 (amended): for every log text made of a single run that is free
of separators and parentheses, whose text-without-final-character does not
end in the digit '5', the tokenizer returns exactly one entry whose name is
the whitespace-trimmed input with its final character removed, and whose
comment is empty. -/
theorem tokenize_single_run_amended (l : Str) (c : Char) (date pc : Str)
    (hl : ∀ x ∈ l, plainChar x) (hc : plainChar c) (h5 : endsIn5 l = false) :
    (get_climb_entries_from_climbing_day (l ++ [c]) date pc).map
      (fun e => (e.name_approx, e.comment)) = [(strip l, [])] := by
  obtain ⟨hc0, hc1, hc2⟩ := hc
  unfold get_climb_entries_from_climbing_day
  rw [tokRun_append, tokRun_plain _ l _ 0 hl rfl (by simp)]
  simp [tokRun, tokStep, hc1, hc2, List.length_append, h5, ClimbEntry.make, strip]

/-- Witness for the amended claim C2 at the concrete input "Armed". -/
theorem tokenize_single_run_amended_witness :
    (get_climb_entries_from_climbing_day "Armed".data [] []).map
      (fun e => (e.name_approx, e.comment)) = [(strip "Arme".data, [])] :=
  tokenize_single_run_amended "Arme".data 'd' [] []
    (by decide) (by decide) (by decide)

/-- Claim C5: in `NAME` mode, a separator character (or the final input
character) does not terminate the current entry when the last accumulated
name character is the digit '5'; in particular the name "Kundalini 5.12d" is
not split at its internal period. -/
theorem digit5_guard_blocks_termination :
    (∀ (cl : Nat) (s : TokState) (idx : Nat) (c : Char),
        s.mode = Mode.name → (c ∈ seps ∨ idx = cl - 1) →
        endsIn5 s.name_approx = true →
        (tokStep cl s idx c).entries = s.entries)
    ∧ ((get_climb_entries_from_climbing_day
          "Kundalini 5.12d, nice send".data [] []).map
        (fun e => e.name_approx)).head? = some "Kundalini 5.12d".data := by
  constructor
  · intro cl s idx c hmode _ h5
    by_cases h1 : c = '('
    · simp [tokStep, h1]
    · by_cases h2 : c = ')' ∧ idx ≠ cl - 1
      · simp [tokStep, h1, h2]
      · by_cases h3 : c = ')' <;> by_cases h4 : idx = cl - 1 <;>
          simp [tokStep, h1, h2, h3, h4, h5, hmode]
  · decide

/-- Witness for claim C5: a concrete `NAME`-mode state whose accumulated name
is "Kundalini 5" is not terminated by the separator '.'. -/
theorem digit5_guard_witness :
    (tokStep 26 ⟨Mode.name, [], "Kundalini 5".data, [], [], 0⟩ 11 '.').entries
      = [] :=
  digit5_guard_blocks_termination.1 26 _ 11 '.' rfl (Or.inl (by decide)) (by decide)

/-- Claim C6: tokenizing
"Armed, Obi (AS), Jedi Mind Tricks * 2 (TA working moves)" returns exactly
three entries: ("Armed", ""), ("Obi", "AS"), and
("Jedi Mind Tricks * 2", "TA working moves"). -/
theorem tokenize_armed_obi_jedi :
    (get_climb_entries_from_climbing_day
        "Armed, Obi (AS), Jedi Mind Tricks * 2 (TA working moves)".data [] []).map
      (fun e => (e.name_approx, e.comment))
      = [("Armed".data, []), ("Obi".data, "AS".data),
         ("Jedi Mind Tricks * 2".data, "TA working moves".data)] := by
  decide

/-- Claim C10: a separator character encountered in `COMMENT` mode never
terminates the current entry: it is appended to the comment accumulator and
every other component of the tokenizer state is unchanged. -/
theorem comment_mode_separator_appends (cl : Nat) (s : TokState) (idx : Nat)
    (c : Char) (hmode : s.mode = Mode.comment) (hsep : c ∈ seps) :
    tokStep cl s idx c = { s with climb_comment := s.climb_comment ++ [c] } := by
  have hc1 : c ≠ '(' := by rintro rfl; exact absurd hsep (by decide)
  have hc2 : c ≠ ')' := by rintro rfl; exact absurd hsep (by decide)
  simp [tokStep, hc1, hc2, hmode]

/-- Witness for claim C10: inside the parenthetical of "Obi (AS, ...", the
comma is appended to the comment and no entry is emitted. -/
theorem comment_mode_separator_appends_witness :
    tokStep 20 ⟨Mode.comment, [], "Obi ".data, "AS".data, [], 0⟩ 7 ','
      = ⟨Mode.comment, [], "Obi ".data, "AS,".data, [], 0⟩ :=
  comment_mode_separator_appends 20 _ 7 ',' rfl (by decide)

/-- Claim C7: constructing a `ClimbEntry` with an initially empty event list
derives the events from the comment: one `hang = false` event per vocabulary
climber found as a substring of the comment, in vocabulary order and nothing
else; when none is found, one `hang = false` event per supplied default
climber. -/
theorem post_init_events_rule (na comment : Str) (climbers : List Str)
    (info : Option ClimbInfo) (idx : Nat) :
    (climberVocab.filter (fun c => containsSub comment c) ≠ [] →
      (ClimbEntry.make na comment climbers info [] idx).climb_events
        = (climberVocab.filter (fun c => containsSub comment c)).map
            (fun c => { climber := c, hang := false }))
    ∧ (climberVocab.filter (fun c => containsSub comment c) = [] →
      (ClimbEntry.make na comment climbers info [] idx).climb_events
        = climbers.map (fun c => { climber := c, hang := false }))
    ∧ (∀ ev ∈ (ClimbEntry.make na comment climbers info [] idx).climb_events,
        ev.hang = false) := by
  refine ⟨?_, ?_, ?_⟩
  · intro hne
    simp [ClimbEntry.make, hne]
  · intro he
    simp [ClimbEntry.make, he]
  · intro ev hev
    by_cases h : climberVocab.filter (fun c => containsSub comment c) = [] <;>
      simp [ClimbEntry.make, h] at hev <;> obtain ⟨c, _, rfl⟩ := hev <;> rfl

/-- Witness for claim C7: the comment "TA and AS tried it" contains both
vocabulary climbers, so the entry gets exactly their two `hang = false`
events; the default climber list is ignored. -/
theorem post_init_events_rule_witness :
    (ClimbEntry.make "X".data "TA and AS tried it".data ["ZZ".data] none [] 0).climb_events
      = [{ climber := "TA".data, hang := false }, { climber := "AS".data, hang := false }] :=
  (post_init_events_rule "X".data "TA and AS tried it".data ["ZZ".data] none 0).1
    (by decide)

/-- Filtering twice with the same predicate filters once. -/
theorem filter_self_idem {α : Type} (p : α → Bool) (l : List α) :
    (l.filter p).filter p = l.filter p := by
  induction l with
  | nil => rfl
  | cons a t ih => by_cases hp : p a <;> simp [List.filter_cons, hp, ih]

/-- Claim C8: `replace_climb_events` is idempotent: when the replacement
events all carry the given climber, applying the operation twice with the
same arguments equals applying it once. -/
theorem replace_climb_events_idempotent (entry : ClimbEntry) (climber : Str)
    (new : List ClimbEvent) (h : ∀ e ∈ new, e.climber = climber) :
    (entry.replace_climb_events climber new).replace_climb_events climber new
      = entry.replace_climb_events climber new := by
  have hnil : new.filter (fun e => decide (e.climber ≠ climber)) = [] :=
    List.filter_eq_nil_iff.mpr (fun e he => by simp [h e he])
  unfold ClimbEntry.replace_climb_events
  congr 1
  rw [List.filter_append, filter_self_idem, hnil, List.append_nil]

/-- Witness for claim C8 at a concrete entry with events for both climbers. -/
theorem replace_climb_events_idempotent_witness :
    ((ClimbEntry.make "Obi".data "TA, AS".data [] none [] 0).replace_climb_events
        "TA".data [{ climber := "TA".data, hang := true }]).replace_climb_events
        "TA".data [{ climber := "TA".data, hang := true }]
      = (ClimbEntry.make "Obi".data "TA, AS".data [] none [] 0).replace_climb_events
          "TA".data [{ climber := "TA".data, hang := true }] :=
  replace_climb_events_idempotent _ "TA".data _ (by decide)

/-- Claim C9: `replace_climb_events` removes exactly the events of the given
climber and appends the new events: the result is the filtered original list
followed by the new events, every event of a different climber survives, the
surviving events stay in their original relative order (the filtered list is
a prefix of the result), and every resulting event is either a new event or
an untouched event of a different climber. -/
theorem replace_climb_events_frame (entry : ClimbEntry) (climber : Str)
    (new : List ClimbEvent) :
    ((entry.replace_climb_events climber new).climb_events
        = entry.climb_events.filter (fun e => decide (e.climber ≠ climber)) ++ new)
    ∧ (∀ e ∈ entry.climb_events, e.climber ≠ climber →
        e ∈ (entry.replace_climb_events climber new).climb_events)
    ∧ List.IsPrefix (entry.climb_events.filter (fun e => decide (e.climber ≠ climber)))
        (entry.replace_climb_events climber new).climb_events
    ∧ (∀ e ∈ (entry.replace_climb_events climber new).climb_events,
        e ∈ new ∨ (e ∈ entry.climb_events ∧ e.climber ≠ climber)) := by
  refine ⟨rfl, ?_, ⟨new, rfl⟩, ?_⟩
  · intro e he hne
    exact List.mem_append_left _ (List.mem_filter.mpr ⟨he, by simp [hne]⟩)
  · intro e he
    rcases List.mem_append.mp he with hf | hn
    · obtain ⟨hmem, hp⟩ := List.mem_filter.mp hf
      exact Or.inr ⟨hmem, by simpa using hp⟩
    · exact Or.inl hn

/-- Witness for claim C9 at a concrete entry: the AS event survives replacing
TA's events. -/
theorem replace_climb_events_frame_witness :
    ((ClimbEntry.make "Obi".data "TA, AS".data [] none [] 0).replace_climb_events
        "TA".data []).climb_events = [{ climber := "AS".data, hang := false }] := by
  have h := (replace_climb_events_frame
    (ClimbEntry.make "Obi".data "TA, AS".data [] none [] 0) "TA".data []).1
  rw [h]
  decide

/-! ### Resolver lemmas -/

theorem score_of_mem_candidateRows (fz : Str → Str → Nat) (n : Str)
    (reg : List (Str × ClimbInfo)) :
    ∀ r ∈ candidateRows fz n reg,
      r.score = if n = r.aliasStr then 1000 else fz n r.aliasStr := by
  intro r hr
  unfold candidateRows at hr
  rw [List.mem_flatten] at hr
  obtain ⟨l, hl, hrl⟩ := hr
  rw [List.mem_map] at hl
  obtain ⟨p, _, rfl⟩ := hl
  rw [List.mem_map] at hrl
  obtain ⟨a, _, rfl⟩ := hrl
  rfl

theorem top_score_max {top : MatchRow} {rest rows : List MatchRow}
    (hperm : List.Perm (top :: rest) rows)
    (hsorted : List.Sorted KeyGE (top :: rest)) :
    ∀ r ∈ rows, r.score ≤ top.score := by
  intro r hr
  have hmem : r ∈ top :: rest := hperm.mem_iff.mpr hr
  rcases List.mem_cons.mp hmem with rfl | hrest
  · exact Nat.le_refl _
  · have hk := (List.sorted_cons.mp hsorted).1 r hrest
    unfold KeyGE at hk
    omega

/-- Claim C1: the thresholding policy of `get_matches`: when every candidate
row scores at or below 60 (the top score is at or below 60), the result has
at most 4 rows, and no row is dropped beyond the count cap (with at most 4
candidate rows, all of them are returned, whatever their scores); when some
row scores above 60 (the top score exceeds 60), every returned row scores at
least 60 and no candidate row scoring at least 60 is omitted. -/
theorem get_matches_threshold_policy (fz : Str → Str → Nat) (n : Str)
    (reg : List (Str × ClimbInfo)) (ms : List MatchRow)
    (h : get_matches fz n reg = some ms) :
    ((∀ r ∈ candidateRows fz n reg, r.score ≤ 60) →
        ms.length ≤ 4 ∧ ((candidateRows fz n reg).length ≤ 4 →
          ∀ r ∈ candidateRows fz n reg, r ∈ ms))
    ∧ ((∃ r ∈ candidateRows fz n reg, 60 < r.score) →
        (∀ r ∈ ms, 60 ≤ r.score) ∧
        (∀ r ∈ candidateRows fz n reg, 60 ≤ r.score → r ∈ ms)) := by
  unfold get_matches at h
  cases hs : List.insertionSort KeyGE (candidateRows fz n reg) with
  | nil => rw [hs] at h; exact absurd h (by simp)
  | cons top rest =>
      rw [hs] at h
      simp only [Option.some.injEq] at h
      have hperm : List.Perm (top :: rest) (candidateRows fz n reg) := by
        rw [← hs]; exact List.perm_insertionSort KeyGE _
      have hsorted : List.Sorted KeyGE (top :: rest) := by
        rw [← hs]; exact List.sorted_insertionSort KeyGE _
      have hmax := top_score_max hperm hsorted
      have htopmem : top ∈ candidateRows fz n reg :=
        hperm.mem_iff.mp (List.mem_cons_self top rest)
      constructor
      · intro hall
        have htop : top.score ≤ 60 := hall top htopmem
        rw [if_pos htop] at h
        constructor
        · rw [← h]; exact List.length_take_le 4 _
        · intro hlen r hr
          have hlen' : (top :: rest).length ≤ 4 := by
            rw [hperm.length_eq]; exact hlen
          rw [← h, List.take_of_length_le hlen']
          exact hperm.mem_iff.mpr hr
      · rintro ⟨r0, hr0, hr0s⟩
        have hgt : ¬ top.score ≤ 60 := by have := hmax r0 hr0; omega
        rw [if_neg hgt] at h
        constructor
        · intro r hr
          rw [← h] at hr
          have := List.of_mem_filter hr
          simpa using this
        · intro r hr hrs
          rw [← h]
          exact List.mem_filter.mpr ⟨hperm.mem_iff.mpr hr, by simpa using hrs⟩

/-- Witness for claim C1: a one-climb registry with aliases "Kundalini" and
"Kunda", resolved for the name "Kunda" under a constant similarity of 70: the
exact alias scores 1000, so the high branch applies and both rows (scores
1000 and 70, both at least 60) are returned. -/
theorem get_matches_threshold_policy_witness :
    (∃ r ∈ candidateRows (fun _ _ => 70) "Kunda".data
        [("Kundalini".data,
          ⟨"Kundalini".data, "5.12d".data, ["Kundalini".data, "Kunda".data]⟩)],
        60 < r.score)
    ∧ (∀ r ∈ [(⟨1000, "Kundalini".data, "Kunda".data, 5⟩ : MatchRow),
              ⟨70, "Kundalini".data, "Kundalini".data, 9⟩], 60 ≤ r.score)
    ∧ (∀ r ∈ candidateRows (fun _ _ => 70) "Kunda".data
        [("Kundalini".data,
          ⟨"Kundalini".data, "5.12d".data, ["Kundalini".data, "Kunda".data]⟩)],
        60 ≤ r.score →
        r ∈ [(⟨1000, "Kundalini".data, "Kunda".data, 5⟩ : MatchRow),
             ⟨70, "Kundalini".data, "Kundalini".data, 9⟩]) := by
  refine ⟨by decide, ?_⟩
  exact (get_matches_threshold_policy (fun _ _ => 70) "Kunda".data
    [("Kundalini".data,
      ⟨"Kundalini".data, "5.12d".data, ["Kundalini".data, "Kunda".data]⟩)]
    [⟨1000, "Kundalini".data, "Kunda".data, 5⟩,
     ⟨70, "Kundalini".data, "Kundalini".data, 9⟩] (by decide)).2 (by decide)

/-- Claim C3 counterexample: resolving the name "Kunda" against the empty
registry does not return an empty ranked-match list; the source raises an
IndexError when it reads the top score of the empty match table, modelled by
`none`. -/
theorem get_matches_empty_registry_counterexample :
    ¬ (get_matches (fun _ _ => 0) "Kunda".data [] = some []) := by decide

/-- Claim C3 (amended): for every similarity function and every name,
resolving against an empty registry fails (out-of-bounds read of the top
score) rather than returning a ranked-match list. -/
theorem get_matches_empty_registry_none (fz : Str → Str → Nat) (n : Str) :
    get_matches fz n [] = none := rfl

/-- Claim C4: with the external similarity function on its documented 0-100
scale, a candidate row whose alias is exactly the approximate name receives
the sentinel score 1000, and in the returned ranking every exact-alias row is
placed strictly before every fuzzily scored row, whatever the alias
lengths. -/
theorem exact_alias_outranks_fuzzy (fz : Str → Str → Nat)
    (hfz : ∀ a b, fz a b ≤ 100) (n : Str) (reg : List (Str × ClimbInfo))
    (ms : List MatchRow) (h : get_matches fz n reg = some ms) :
    (∀ r ∈ candidateRows fz n reg, r.aliasStr = n → r.score = 1000)
    ∧ (∀ (i j : Fin ms.length), (ms.get i).aliasStr = n →
        (ms.get j).aliasStr ≠ n → (i : Nat) < (j : Nat)) := by
  have hscore := score_of_mem_candidateRows fz n reg
  constructor
  · intro r hr ha
    rw [hscore r hr, if_pos ha.symm]
  · unfold get_matches at h
    cases hs : List.insertionSort KeyGE (candidateRows fz n reg) with
    | nil => rw [hs] at h; exact absurd h (by simp)
    | cons top rest =>
        rw [hs] at h
        simp only [Option.some.injEq] at h
        have hperm : List.Perm (top :: rest) (candidateRows fz n reg) := by
          rw [← hs]; exact List.perm_insertionSort KeyGE _
        have hsorted : List.Sorted KeyGE (top :: rest) := by
          rw [← hs]; exact List.sorted_insertionSort KeyGE _
        have hsub : List.Sublist ms (top :: rest) := by
          rw [← h]
          by_cases hc : top.score ≤ 60
          · rw [if_pos hc]; exact List.take_sublist 4 _
          · rw [if_neg hc]; exact List.filter_sublist _
        have hpair : List.Pairwise KeyGE ms := hsorted.sublist hsub
        have hmem : ∀ r ∈ ms, r ∈ candidateRows fz n reg :=
          fun r hr => hperm.mem_iff.mp (hsub.mem hr)
        intro i j hi hj
        have hsi : (ms.get i).score = 1000 := by
          rw [hscore _ (hmem _ (List.get_mem ms i.1 i.2)), if_pos hi.symm]
        have hsj : (ms.get j).score ≤ 100 := by
          rw [hscore _ (hmem _ (List.get_mem ms j.1 j.2)),
            if_neg (fun hn => hj hn.symm)]
          exact hfz n _
        rcases Nat.lt_trichotomy (i : Nat) (j : Nat) with hlt | heq | hgt
        · exact hlt
        · exfalso
          have hij : i = j := Fin.ext heq
          rw [hij] at hsi
          omega
        · exfalso
          have hk := List.pairwise_iff_get.mp hpair j i hgt
          unfold KeyGE at hk
          omega

/-- Witness for claim C4: with constant similarity 70 (within the 0-100
scale) and the alias "Kunda" equal to the approximate name, the exact-alias
row scores 1000 and sits strictly before the fuzzily scored row. -/
theorem exact_alias_outranks_fuzzy_witness :
    (∀ a b : Str, (fun _ _ => 70 : Str → Str → Nat) a b ≤ 100)
    ∧ ((∀ r ∈ candidateRows (fun _ _ => 70) "Kunda".data
          [("Kundalini".data,
            ⟨"Kundalini".data, "5.12d".data, ["Kundalini".data, "Kunda".data]⟩)],
          r.aliasStr = "Kunda".data → r.score = 1000)
      ∧ (∀ (i j : Fin ([(⟨1000, "Kundalini".data, "Kunda".data, 5⟩ : MatchRow),
              ⟨70, "Kundalini".data, "Kundalini".data, 9⟩] : List MatchRow).length),
          (([(⟨1000, "Kundalini".data, "Kunda".data, 5⟩ : MatchRow),
              ⟨70, "Kundalini".data, "Kundalini".data, 9⟩] : List MatchRow).get i).aliasStr
              = "Kunda".data →
          (([(⟨1000, "Kundalini".data, "Kunda".data, 5⟩ : MatchRow),
              ⟨70, "Kundalini".data, "Kundalini".data, 9⟩] : List MatchRow).get j).aliasStr
              ≠ "Kunda".data →
          (i : Nat) < (j : Nat))) :=
  ⟨fun _ _ => (by decide : (70 : Nat) ≤ 100),
   exact_alias_outranks_fuzzy (fun _ _ => 70)
     (fun _ _ => (by decide : (70 : Nat) ≤ 100))
     "Kunda".data
     [("Kundalini".data,
       ⟨"Kundalini".data, "5.12d".data, ["Kundalini".data, "Kunda".data]⟩)]
     [⟨1000, "Kundalini".data, "Kunda".data, 5⟩,
      ⟨70, "Kundalini".data, "Kundalini".data, 9⟩] (by decide)⟩
